import Mathlib

/-!
# Verification of the `rust-ecvrf` core (`src/main.rs`)

A shallow embedding of the ECVRF implementation over the Ristretto group
(`ECVRF_prove`, `ECVRF_verify`, the proof codec, and their helpers), together
with theorems settling the specification's claims.

## Modelling conventions

* **Bytes** are `Nat`s; the code's `[u8; n]` buffers become `List Nat` whose
  members are `< 256` wherever that matters (stated as hypotheses).
* **Scalars** (`curve25519_dalek::scalar::Scalar`) are modelled by the natural
  number encoded by their 32 little-endian bytes (always `< 2^256`).
  `Scalar::from_bits` clears bit 255, hence reduces the value `% 2^255`;
  `reduce` is `% L` where `L` is the group order; `Mul` produces the canonical
  product mod `L` (Montgomery arithmetic); `Add` performs limb addition
  followed by a single conditional subtraction of `L`; `==` compares the byte
  encodings, i.e. the `Nat` values.
* **Points**: the Ristretto group is cyclic of prime order `L`, so a
  `RistrettoPoint` is modelled by its discrete logarithm with respect to the
  basepoint, an element of `ZMod L`.  Point addition/subtraction is
  addition/subtraction in `ZMod L`, the basepoint is `1`, and multiplication
  of a point by a (possibly unreduced, `< 2^255`) scalar `s` is multiplication
  by `(s : ZMod L)` — faithful because the group has order `L`.
* **External primitives** (SHA-512, Ristretto compression/decompression,
  `RistrettoPoint::from_uniform_bytes`, Edwards compression/decompression of
  public keys) are consumed from `curve25519_dalek`/`ed25519_dalek`/`sha2`,
  not reimplemented by this repository; they are parameters of the embedding,
  gathered in the structure `Prims`, with the properties the library
  guarantees stated in `Prims.Good`.  Per the reinterpretation note of the
  specification (§9), for the public keys in play the decompressed Edwards
  point lies in the prime-order subgroup and coincides with its Ristretto
  representative, so `edDecompress` also lands in `ZMod L`; `transmute` is the
  identity under this identification.
-/

namespace ECVRF

/-- The order of the Ristretto group (= order of the prime-order subgroup of
edwards25519): `2^252 + 27742317777372353535851937790883648493`. -/
def L : Nat := 2 ^ 252 + 27742317777372353535851937790883648493

/-- A Ristretto point, modelled by its discrete log w.r.t. the basepoint. -/
abbrev Point := ZMod L

/-- The value of a little-endian byte string. -/
def leVal : List Nat → Nat
  | [] => 0
  | b :: rest => b + 256 * leVal rest

/-- The `n` little-endian bytes of `v` (i.e. of `v % 256^n`). -/
def natToBytesLE : Nat → Nat → List Nat
  | 0, _ => []
  | n + 1, v => v % 256 :: natToBytesLE n (v / 256)

/-- `Scalar::from_bits`: keep the 32 bytes but clear bit 255. -/
def scalarFromBits (bytes : List Nat) : Nat := leVal bytes % 2 ^ 255

/-- `Scalar::reduce`: canonical reduction mod the group order. -/
def scalarReduce (s : Nat) : Nat := s % L

/-- `Scalar * Scalar` (Montgomery multiplication, canonical result). -/
def scalarMul (a b : Nat) : Nat := a * b % L

/-- `Scalar + Scalar`: limb addition followed by one conditional
subtraction of `L` (`UnpackedScalar::add`). -/
def scalarAdd (a b : Nat) : Nat := if L ≤ a + b then a + b - L else a + b

/-- `Scalar::to_bytes`: the 32 little-endian bytes. -/
def scalarToBytes (s : Nat) : List Nat := natToBytesLE 32 s

/-- The external primitives consumed by the core (SHA-512 and the
curve25519_dalek group operations); see the module docstring. -/
structure Prims where
  /-- `sha2::Sha512`: hash a byte string to a 64-byte digest. -/
  sha512 : List Nat → List Nat
  /-- Ristretto point compression (`RistrettoPoint::compress`), 32 bytes. -/
  compress : Point → List Nat
  /-- Ristretto decompression (`CompressedRistretto::decompress`). -/
  decompress : List Nat → Option Point
  /-- `RistrettoPoint::from_uniform_bytes`. -/
  fromUniform : List Nat → Point
  /-- Edwards compression of a prime-order-subgroup point (the encoding of an
  `ed25519_dalek::PublicKey`). -/
  edCompress : Point → List Nat
  /-- Edwards decompression of a candidate public key
  (`CompressedEdwardsY::decompress`), composed with the `transmute`
  reinterpretation as a Ristretto point. -/
  edDecompress : List Nat → Option Point

/-- The guarantees the external libraries provide for the primitives. -/
structure Prims.Good (pr : Prims) : Prop where
  sha_len : ∀ m, (pr.sha512 m).length = 64
  sha_bytes : ∀ m, ∀ b ∈ pr.sha512 m, b < 256
  compress_len : ∀ P, (pr.compress P).length = 32
  decompress_compress : ∀ P, pr.decompress (pr.compress P) = some P
  edDecompress_edCompress : ∀ P, pr.edDecompress (pr.edCompress P) = some P

/-- The group basepoint (`RISTRETTO_BASEPOINT_POINT`) in the dlog model. -/
def basepoint : Point := 1

/-- Multiplication of a point by a scalar value (`&Scalar * &RistrettoPoint`);
the result depends only on the scalar mod `L` because the group has order
`L`. -/
def smulPoint (s : Nat) (P : Point) : Point := (s : ZMod L) * P

/-- `util::Error`.  Modelled from the spec: the repository's `util` module
(`src/util.rs`) is not present under `src/`; the spec names a single
structural error, `InvalidData`. -/
inductive ECVRF_Error where
  | InvalidDataError
deriving DecidableEq, Repr

/-- The outcome of a Rust call that may return `Ok`, return `Err`, or panic
(`unwrap` on `None` aborts instead of returning). -/
inductive RustResult (α : Type) where
  | ok (val : α)
  | err (e : ECVRF_Error)
  | panicked
deriving DecidableEq, Repr

instance {ε α : Type} [DecidableEq ε] [DecidableEq α] : DecidableEq (Except ε α) :=
  fun a b =>
    match a, b with
    | .ok x, .ok y =>
        if h : x = y then .isTrue (by rw [h])
        else .isFalse fun hh => h (by injection hh)
    | .error x, .error y =>
        if h : x = y then .isTrue (by rw [h])
        else .isFalse fun hh => h (by injection hh)
    | .ok _, .error _ => .isFalse fun hh => Except.noConfusion hh
    | .error _, .ok _ => .isFalse fun hh => Except.noConfusion hh

/-- Cipher-suite byte (`pub const SUITE : u8 = 0x05`). -/
def SUITE : Nat := 0x05

/-- The ECVRF proof `{Gamma, c, s}` (`pub struct ECVRF_Proof`). -/
structure ECVRF_Proof where
  Gamma : Point
  c : Nat
  s : Nat
deriving DecidableEq, Repr

/-- The RFC 8032 clamping performed on the 64-byte SHA-512 digest `h`:
`h[0] &= 248; h[31] &= 127; h[31] |= 64`. -/
def clamp64 (h : List Nat) : List Nat :=
  (h.set 0 ((h.getD 0 0) &&& 248)).set 31 (((h.getD 31 0) &&& 127) ||| 64)

/-- Ed25519 public-key derivation
(`ed25519_dalek::PublicKey::from_secret::<Sha512>`): hash the secret, clamp,
interpret the low 32 bytes as a scalar, multiply the basepoint, compress. -/
def derive_public_key (pr : Prims) (secret : List Nat) : List Nat :=
  let h := clamp64 (pr.sha512 (secret.take 32))
  pr.edCompress (smulPoint (scalarFromBits (h.take 32)) basepoint)

/-- `ECVRF_expand_privkey`: returns `(pubkey, x_scalar, trunc_hash)` where
`h = SHA-512(secret)` is clamped, `x = Scalar::from_bits(h[0..32])` and
`trunc_hash = h[32..64]`.  The Rust function's `Result` is always `Ok`. -/
def ECVRF_expand_privkey (pr : Prims) (secret : List Nat) :
    List Nat × Nat × List Nat :=
  let h := clamp64 (pr.sha512 (secret.take 32))
  (derive_public_key pr secret, scalarFromBits (h.take 32), h.drop 32)

/-- `ECVRF_point_to_string`: compress a point to its 32-byte encoding. -/
def ECVRF_point_to_string (pr : Prims) (p : Point) : List Nat := pr.compress p

/-- `ECVRF_hash_to_curve`: map `SHA-512(SUITE ‖ 0x01 ‖ pk_bytes ‖ alpha)`
through `RistrettoPoint::from_uniform_bytes`.  The Rust function's `Result`
is always `Ok`. -/
def ECVRF_hash_to_curve (pr : Prims) (pkBytes alpha : List Nat) : Point :=
  pr.fromUniform (pr.sha512 ([SUITE, 0x01] ++ pkBytes ++ alpha))

/-- `ECVRF_hash_points`: the first 16 bytes of
`SHA-512(SUITE ‖ 0x02 ‖ compress(p1) ‖ compress(p2) ‖ compress(p3) ‖ compress(p4))`. -/
def ECVRF_hash_points (pr : Prims) (p1 p2 p3 p4 : Point) : List Nat :=
  (pr.sha512 ([SUITE, 0x02] ++ ECVRF_point_to_string pr p1 ++
    ECVRF_point_to_string pr p2 ++ ECVRF_point_to_string pr p3 ++
    ECVRF_point_to_string pr p4)).take 16

/-- `ECVRF_nonce_generation`: `Scalar::from_bits(SHA-512(trunc_hash ‖
compress(H))[0..32]).reduce()`. -/
def ECVRF_nonce_generation (pr : Prims) (trunc_hash : List Nat) (H_point : Point) : Nat :=
  scalarReduce (scalarFromBits ((pr.sha512 (trunc_hash ++ pr.compress H_point)).take 32))

/-- `ECVRF_ed25519_scalar_from_hash128`: the 16 hash bytes placed in the low
half of a 32-byte scalar buffer, upper half zero, via `Scalar::from_bits`. -/
def ECVRF_ed25519_scalar_from_hash128 (hash128 : List Nat) : Nat :=
  scalarFromBits (hash128.take 16 ++ List.replicate 16 0)

/-- `ECVRF_prove`: the proof `{Gamma = x·H, c, s = (c·x + k) mod L}` (the Rust
function returns `Ok` on every path). -/
def ECVRF_prove (pr : Prims) (secret alpha : List Nat) :
    Except ECVRF_Error ECVRF_Proof :=
  let expanded := ECVRF_expand_privkey pr secret
  let Y_bytes := expanded.1
  let x_scalar := expanded.2.1
  let trunc_hash := expanded.2.2
  let H_point := ECVRF_hash_to_curve pr Y_bytes alpha
  let Gamma_point := smulPoint x_scalar H_point
  let k_scalar := ECVRF_nonce_generation pr trunc_hash H_point
  let kB_point := smulPoint k_scalar basepoint
  let kH_point := smulPoint k_scalar H_point
  let c_hashbuf := ECVRF_hash_points pr H_point Gamma_point kB_point kH_point
  let c_scalar := ECVRF_ed25519_scalar_from_hash128 c_hashbuf
  let s_full_scalar := scalarAdd (scalarMul c_scalar x_scalar) k_scalar
  let s_scalar := scalarReduce s_full_scalar
  .ok { Gamma := Gamma_point, c := c_scalar, s := s_scalar }

/-- `ECVRF_ed25519_PublicKey_to_RistrettoPoint` without its final `unwrap`:
decompress the Edwards encoding and reinterpret as a Ristretto point;
`none` means the Rust code panics. -/
def ECVRF_ed25519_PublicKey_to_RistrettoPoint (pr : Prims) (public_key : List Nat) :
    Option Point :=
  pr.edDecompress public_key

/-- `ECVRF_verify`: recompute `H`, `U = s'·B − c·Y`, `V = s'·H − c·Γ`, and
compare the recomputed challenge with `proof.c`.  The `unwrap` inside
`ECVRF_ed25519_PublicKey_to_RistrettoPoint` panics on an undecodable public
key (`RustResult.panicked`). -/
def ECVRF_verify (pr : Prims) (Y_point : List Nat) (proof : ECVRF_Proof)
    (alpha : List Nat) : RustResult Bool :=
  let H_point := ECVRF_hash_to_curve pr Y_point alpha
  let s_reduced := scalarReduce proof.s
  match ECVRF_ed25519_PublicKey_to_RistrettoPoint pr Y_point with
  | none => .panicked
  | some Y_ristretto_point =>
    let U_point := smulPoint s_reduced basepoint - smulPoint proof.c Y_ristretto_point
    let V_point := smulPoint s_reduced H_point - smulPoint proof.c proof.Gamma
    let c_prime_hashbuf := ECVRF_hash_points pr H_point proof.Gamma U_point V_point
    let c_prime := ECVRF_ed25519_scalar_from_hash128 c_prime_hashbuf
    .ok (c_prime == proof.c)

/-- `ECVRF_Proof::from_slice`: length must be 80; `Gamma` decompresses from
bytes 0..32 (else `InvalidData`); `c` is bytes 32..48 zero-extended;
`s` is bytes 48..80. -/
def ECVRF_Proof.from_slice (pr : Prims) (bytes : List Nat) :
    Except ECVRF_Error ECVRF_Proof :=
  if bytes.length = 80 then
    match pr.decompress (bytes.take 32) with
    | none => .error .InvalidDataError
    | some gamma =>
      let c_buf := (bytes.drop 32).take 16 ++ List.replicate 16 0
      let s_buf := (bytes.drop 48).take 32
      .ok { Gamma := gamma, c := scalarFromBits c_buf, s := scalarFromBits s_buf }
  else .error .InvalidDataError

/-- `ECVRF_Proof::to_bytes`: reject (`InvalidData`) if any of the upper 16
bytes of `reduce(c)` is non-zero; otherwise emit
`compress(Gamma) ‖ c_bytes[0..16] ‖ s_bytes`. -/
def ECVRF_Proof.to_bytes (pr : Prims) (proof : ECVRF_Proof) :
    Except ECVRF_Error (List Nat) :=
  let c_bytes := scalarToBytes (scalarReduce proof.c)
  if (c_bytes.drop 16).any (fun b => b ≠ 0) then .error .InvalidDataError
  else
    .ok (pr.compress proof.Gamma ++ c_bytes.take 16 ++ scalarToBytes proof.s)

/-! ## Arithmetic and byte-level helper lemmas -/

theorem L_pos : 0 < L := by unfold L; positivity

instance : NeZero L := ⟨Nat.pos_iff_ne_zero.mp L_pos⟩

theorem L_lt_two_pow_253 : L < 2 ^ 253 := by unfold L; norm_num

theorem length_natToBytesLE (n v : Nat) : (natToBytesLE n v).length = n := by
  induction n generalizing v with
  | zero => rfl
  | succ n ih => simp [natToBytesLE, ih]

theorem leVal_natToBytesLE (n v : Nat) : leVal (natToBytesLE n v) = v % 256 ^ n := by
  induction n generalizing v with
  | zero => simp [natToBytesLE, leVal, Nat.mod_one]
  | succ n ih =>
      simp only [natToBytesLE, leVal, ih]
      rw [pow_succ, mul_comm (256 ^ n) 256, Nat.mod_mul]

theorem natToBytesLE_zero (n : Nat) : natToBytesLE n 0 = List.replicate n 0 := by
  induction n with
  | zero => rfl
  | succ n ih => simp [natToBytesLE, ih, List.replicate]

theorem natToBytesLE_add (m n v : Nat) :
    natToBytesLE (m + n) v = natToBytesLE m v ++ natToBytesLE n (v / 256 ^ m) := by
  induction m generalizing v with
  | zero => simp [natToBytesLE]
  | succ m ih =>
      have : m + 1 + n = (m + n) + 1 := by omega
      rw [this]
      simp only [natToBytesLE, ih, List.cons_append, Nat.div_div_eq_div_mul]
      rw [pow_succ, mul_comm (256 ^ m) 256]

theorem take_natToBytesLE (m n v : Nat) (h : m ≤ n) :
    (natToBytesLE n v).take m = natToBytesLE m v := by
  obtain ⟨k, rfl⟩ := Nat.exists_eq_add_of_le h
  rw [natToBytesLE_add, List.take_left' (length_natToBytesLE m v)]

theorem drop_natToBytesLE (m n v : Nat) (h : m ≤ n) :
    (natToBytesLE n v).drop m = natToBytesLE (n - m) (v / 256 ^ m) := by
  obtain ⟨k, rfl⟩ := Nat.exists_eq_add_of_le h
  rw [natToBytesLE_add, List.drop_left' (length_natToBytesLE m v)]
  congr 1
  omega

theorem leVal_append (l₁ l₂ : List Nat) :
    leVal (l₁ ++ l₂) = leVal l₁ + 256 ^ l₁.length * leVal l₂ := by
  induction l₁ with
  | nil => simp [leVal]
  | cons b l ih =>
      show b + 256 * leVal (l ++ l₂) = b + 256 * leVal l + 256 ^ (l.length + 1) * leVal l₂
      rw [ih]
      ring

theorem leVal_replicate_zero (n : Nat) : leVal (List.replicate n 0) = 0 := by
  induction n with
  | zero => rfl
  | succ n ih => simp [List.replicate, leVal, ih]

theorem leVal_lt (l : List Nat) (h : ∀ b ∈ l, b < 256) :
    leVal l < 256 ^ l.length := by
  induction l with
  | nil => simp [leVal]
  | cons b rest ih =>
      simp only [leVal, List.length_cons, pow_succ]
      have hb : b < 256 := h b (List.mem_cons_self b rest)
      have hrest : leVal rest < 256 ^ rest.length :=
        ih fun x hx => h x (List.mem_cons_of_mem b hx)
      calc b + 256 * leVal rest < 256 + 256 * leVal rest := by omega
        _ = 256 * (leVal rest + 1) := by ring
        _ ≤ 256 * 256 ^ rest.length := by
              exact Nat.mul_le_mul_left 256 hrest
        _ = 256 ^ rest.length * 256 := by ring

theorem natToBytesLE_bytes (n v : Nat) : ∀ b ∈ natToBytesLE n v, b < 256 := by
  induction n generalizing v with
  | zero => simp [natToBytesLE]
  | succ n ih =>
      intro b hb
      simp only [natToBytesLE, List.mem_cons] at hb
      rcases hb with h | h
      · subst h; exact Nat.mod_lt _ (by omega)
      · exact ih _ b h

/-! ### Casts of the scalar operations into `ZMod L` -/

theorem cast_scalarReduce (s : Nat) : ((scalarReduce s : Nat) : ZMod L) = (s : ZMod L) := by
  unfold scalarReduce
  exact ZMod.natCast_mod s L

theorem cast_scalarMul (a b : Nat) :
    ((scalarMul a b : Nat) : ZMod L) = (a : ZMod L) * (b : ZMod L) := by
  unfold scalarMul
  rw [ZMod.natCast_mod, Nat.cast_mul]

theorem cast_scalarAdd (a b : Nat) :
    ((scalarAdd a b : Nat) : ZMod L) = (a : ZMod L) + (b : ZMod L) := by
  unfold scalarAdd
  split
  · rename_i hle
    rw [Nat.cast_sub hle, Nat.cast_add, ZMod.natCast_self, sub_zero]
  · rw [Nat.cast_add]

theorem scalarReduce_lt (s : Nat) : scalarReduce s < L := Nat.mod_lt _ L_pos

theorem scalarReduce_scalarReduce (s : Nat) :
    scalarReduce (scalarReduce s) = scalarReduce s := by
  unfold scalarReduce
  exact Nat.mod_mod_of_dvd s dvd_rfl

theorem scalarReduce_scalarAdd_scalarMul (c x k : Nat) :
    scalarReduce (scalarAdd (scalarMul c x) k) = (c * x + k) % L := by
  unfold scalarReduce scalarAdd scalarMul
  split
  · rename_i hle
    rw [← Nat.add_mod_right (c * x % L + k - L) L, Nat.sub_add_cancel hle,
      Nat.mod_add_mod]
  · rw [Nat.mod_add_mod]

/-! ## A concrete instantiation of the primitives

Used to evaluate the development on explicit inputs: the hash is the constant
zero digest, a point encodes as the 32 little-endian bytes of its discrete
log, decompression accepts exactly the encodings of values `< L`.  It
satisfies every property of `Prims.Good`. -/

/-- Concrete decompression: accept 32-byte strings whose value is `< L`. -/
def modelDecompress (l : List Nat) : Option Point :=
  if l.length = 32 ∧ leVal l < L then some ((leVal l : Nat) : ZMod L) else none

/-- A concrete `Prims` instance (see section header). -/
def concretePrims : Prims where
  sha512 := fun _ => List.replicate 64 0
  compress := fun p => natToBytesLE 32 p.val
  decompress := modelDecompress
  fromUniform := fun l => ((leVal l : Nat) : ZMod L)
  edCompress := fun p => natToBytesLE 32 p.val
  edDecompress := modelDecompress

theorem modelDecompress_val (p : Point) :
    modelDecompress (natToBytesLE 32 p.val) = some p := by
  have hval : p.val < L := ZMod.val_lt p
  have hlt : leVal (natToBytesLE 32 p.val) = p.val := by
    rw [leVal_natToBytesLE, Nat.mod_eq_of_lt]
    calc p.val < L := hval
      _ < 2 ^ 253 := L_lt_two_pow_253
      _ ≤ 256 ^ 32 := by norm_num
  unfold modelDecompress
  rw [if_pos ⟨length_natToBytesLE 32 p.val, by rw [hlt]; exact hval⟩, hlt,
    ZMod.natCast_rightInverse p]

theorem concretePrims_good : concretePrims.Good where
  sha_len := fun _ => by simp [concretePrims]
  sha_bytes := fun m b hb => by
    simp only [concretePrims, List.mem_replicate] at hb
    omega
  compress_len := fun P => by
    simp only [concretePrims]
    exact length_natToBytesLE 32 P.val
  decompress_compress := fun P => by
    simp only [concretePrims]
    exact modelDecompress_val P
  edDecompress_edCompress := fun P => by
    simp only [concretePrims]
    exact modelDecompress_val P

/-! ## Specification-side definitions (for the refinement claims)

These follow the wording of the specification, to be compared against the
definitions above, which are transcribed from the source. -/

/-- The Prove data flow exactly as the specification words it:
`(Y, x, seed) = expand(sk); H = hash_to_curve(Y, α); Γ = x·H;
k = reduce(scalar_from_bits(SHA-512(seed ‖ compress(H))[0..32]));
c = H₁₂₈(H, Γ, k·B, k·H); s = (c·x + k) mod ℓ`. -/
def proveSpecAlg (pr : Prims) (sk alpha : List Nat) : ECVRF_Proof :=
  let expanded := ECVRF_expand_privkey pr sk
  let Y := expanded.1
  let x := expanded.2.1
  let seed := expanded.2.2
  let H := ECVRF_hash_to_curve pr Y alpha
  let Gamma := smulPoint x H
  let k := scalarReduce (scalarFromBits ((pr.sha512 (seed ++ pr.compress H)).take 32))
  let c := ECVRF_ed25519_scalar_from_hash128
    (ECVRF_hash_points pr H Gamma (smulPoint k basepoint) (smulPoint k H))
  let s := (c * x + k) % L
  { Gamma := Gamma, c := c, s := s }

/-- The challenge the specification says Verify recomputes:
`H = hash_to_curve(Y, α); s' = reduce(s); U = s'·B − c·Y; V = s'·H − c·Γ;
c' = H₁₂₈(H, Γ, U, V)`, for a public key decoding to the point `Yp`. -/
def verifySpecChallenge (pr : Prims) (Yp : Point) (Y_bytes : List Nat)
    (proof : ECVRF_Proof) (alpha : List Nat) : Nat :=
  let H := ECVRF_hash_to_curve pr Y_bytes alpha
  let s' := scalarReduce proof.s
  let U := smulPoint s' basepoint - smulPoint proof.c Yp
  let V := smulPoint s' H - smulPoint proof.c proof.Gamma
  ECVRF_ed25519_scalar_from_hash128 (ECVRF_hash_points pr H proof.Gamma U V)

/-! ## Shape lemmas for `ECVRF_verify` -/

theorem ECVRF_verify_of_decodable (pr : Prims) (Y : List Nat) (proof : ECVRF_Proof)
    (alpha : List Nat) (Yp : Point) (h : pr.edDecompress Y = some Yp) :
    ECVRF_verify pr Y proof alpha =
      .ok (verifySpecChallenge pr Yp Y proof alpha == proof.c) := by
  unfold ECVRF_verify ECVRF_ed25519_PublicKey_to_RistrettoPoint verifySpecChallenge
  rw [h]

theorem ECVRF_verify_of_undecodable (pr : Prims) (Y : List Nat) (proof : ECVRF_Proof)
    (alpha : List Nat) (h : pr.edDecompress Y = none) :
    ECVRF_verify pr Y proof alpha = .panicked := by
  unfold ECVRF_verify ECVRF_ed25519_PublicKey_to_RistrettoPoint
  rw [h]

/-- The verification identity: with `s = reduce((c·x mod L) ⊞ k)` the point
`s·P − c·(x·P)` is `k·P`. -/
theorem honest_UV (c x k : Nat) (P : Point) :
    smulPoint (scalarReduce (scalarReduce (scalarAdd (scalarMul c x) k))) P -
      smulPoint c (smulPoint x P) = smulPoint k P := by
  unfold smulPoint
  rw [cast_scalarReduce, cast_scalarReduce, cast_scalarAdd, cast_scalarMul]
  ring

/-- Verification succeeds on any proof assembled from honest parts:
public key `x·B`, `Γ = x·H`, challenge `c` over `(H, Γ, k·B, k·H)`, response
`s = reduce(c·x ⊞ k)`. -/
theorem verify_of_honest_parts (pr : Prims) (hpr : pr.Good) (x k c : Nat)
    (alpha Yb : List Nat) (H : Point)
    (hYb : Yb = pr.edCompress (smulPoint x basepoint))
    (hH : H = ECVRF_hash_to_curve pr Yb alpha)
    (hc : c = ECVRF_ed25519_scalar_from_hash128
      (ECVRF_hash_points pr H (smulPoint x H) (smulPoint k basepoint) (smulPoint k H))) :
    ECVRF_verify pr Yb
      { Gamma := smulPoint x H, c := c,
        s := scalarReduce (scalarAdd (scalarMul c x) k) } alpha = .ok true := by
  rw [ECVRF_verify_of_decodable pr Yb _ alpha (smulPoint x basepoint)
    (by rw [hYb]; exact hpr.edDecompress_edCompress _)]
  simp only [verifySpecChallenge]
  rw [← hH, honest_UV c x k basepoint, honest_UV c x k H, ← hc]
  simp

/-- **C1.** For every 32-byte secret key `sk` and every message `alpha`
(including the empty message), verifying an honestly generated proof
succeeds: `verify(derive_public_key(sk), prove(sk, alpha), alpha)` returns
`true`. -/
theorem ECVRF_correctness (pr : Prims) (hpr : pr.Good) (sk alpha : List Nat) :
    ∃ proof, ECVRF_prove pr sk alpha = .ok proof ∧
      ECVRF_verify pr (derive_public_key pr sk) proof alpha = .ok true := by
  refine ⟨_, rfl, ?_⟩
  exact verify_of_honest_parts pr hpr _ _ _ alpha _ _ rfl rfl rfl

/-- Witness for C1: the claim instantiated at the concrete primitives, the
all-zero 32-byte secret key and the empty message. -/
theorem ECVRF_correctness_witness :
    concretePrims.Good ∧
    ∃ proof, ECVRF_prove concretePrims (List.replicate 32 0) [] = .ok proof ∧
      ECVRF_verify concretePrims
        (derive_public_key concretePrims (List.replicate 32 0)) proof [] = .ok true :=
  ⟨concretePrims_good,
    ECVRF_correctness concretePrims concretePrims_good (List.replicate 32 0) []⟩

/-- **C3.** For every 32-byte `sk` and message `alpha`, `prove` returns the
triple `{Γ, c, s}` computed exactly as: `(Y, x, seed) = expand(sk);
H = hash_to_curve(Y, alpha); Γ = x·H;
k = reduce(scalar_from_bits(SHA-512(seed ‖ compress(H))[0..32]));
c = H₁₂₈(H, Γ, k·B, k·H); s = (c·x + k) mod ℓ`. -/
theorem ECVRF_prove_follows_spec (pr : Prims) (sk alpha : List Nat) :
    ECVRF_prove pr sk alpha = .ok (proveSpecAlg pr sk alpha) := by
  simp only [ECVRF_prove, proveSpecAlg, ECVRF_nonce_generation,
    scalarReduce_scalarAdd_scalarMul]

/-- **C4.** For every decodable public key `Y`, proof `{Γ, c, s}` and message
`alpha`, `verify` computes `H = hash_to_curve(Y, alpha)`, `s' = reduce(s)`,
`U = s'·B − c·Y`, `V = s'·H − c·Γ`, `c' = H₁₂₈(H, Γ, U, V)`, and returns
`true` if and only if `c'` equals `c`. -/
theorem ECVRF_verify_follows_spec (pr : Prims) (Y : List Nat) (proof : ECVRF_Proof)
    (alpha : List Nat) (Yp : Point) (h : pr.edDecompress Y = some Yp) :
    ECVRF_verify pr Y proof alpha =
      .ok (verifySpecChallenge pr Yp Y proof alpha == proof.c) ∧
    (ECVRF_verify pr Y proof alpha = .ok true ↔
      verifySpecChallenge pr Yp Y proof alpha = proof.c) := by
  have h1 := ECVRF_verify_of_decodable pr Y proof alpha Yp h
  refine ⟨h1, ?_⟩
  rw [h1]
  simp

/-- Witness for C4: the claim instantiated at the concrete primitives, the
public key encoding the point `1`, the zero proof and the empty message. -/
theorem ECVRF_verify_follows_spec_witness :
    concretePrims.edDecompress (natToBytesLE 32 1) = some 1 ∧
    ECVRF_verify concretePrims (natToBytesLE 32 1) ⟨0, 0, 0⟩ [] =
      .ok (verifySpecChallenge concretePrims 1 (natToBytesLE 32 1) ⟨0, 0, 0⟩ [] == 0) :=
  ⟨by decide,
    (ECVRF_verify_follows_spec concretePrims (natToBytesLE 32 1) ⟨0, 0, 0⟩ [] 1
      (by decide)).1⟩

/-- **C2 counterexample.** At the concrete primitives, the 32-byte string
encoding `L` is not a decodable public key, yet `verify` does not return the
`InvalidData` error there (it panics): the claim "verify fails by returning
the InvalidData error to the caller" is false of the code. -/
theorem ECVRF_verify_undecodable_not_InvalidData :
    concretePrims.edDecompress (natToBytesLE 32 L) = none ∧
    ECVRF_verify concretePrims (natToBytesLE 32 L) ⟨0, 0, 0⟩ [] ≠
      .err .InvalidDataError := by
  constructor
  · decide
  · decide

/-- **C2 (amended).** When the public key `pk` is not a decodable point,
`verify` does not return at all: the decompression result is unwrapped, so
the call panics; `verify` never returns an `InvalidData` error, and it
returns the boolean `false` exactly on challenge mismatch of a decodable
input. -/
theorem ECVRF_verify_undecodable_behavior (pr : Prims) (Y : List Nat)
    (proof : ECVRF_Proof) (alpha : List Nat) :
    (ECVRF_verify pr Y proof alpha = .panicked ↔ pr.edDecompress Y = none) ∧
    (∀ e, ECVRF_verify pr Y proof alpha ≠ .err e) ∧
    (∀ Yp, pr.edDecompress Y = some Yp →
      (ECVRF_verify pr Y proof alpha = .ok false ↔
        verifySpecChallenge pr Yp Y proof alpha ≠ proof.c)) := by
  cases h : pr.edDecompress Y with
  | none =>
      rw [ECVRF_verify_of_undecodable pr Y proof alpha h]
      refine ⟨by simp, fun e hh => RustResult.noConfusion hh, ?_⟩
      intro Yp hYp
      cases hYp
  | some Yp =>
      rw [ECVRF_verify_of_decodable pr Y proof alpha Yp h]
      refine ⟨?_, fun e hh => RustResult.noConfusion hh, ?_⟩
      · constructor
        · intro hh; exact RustResult.noConfusion hh
        · intro hh; cases hh
      · intro Yp' hYp'
        injection hYp' with he
        subst he
        simp

/-- Witness for C2 (amended): at the concrete primitives, the undecodable
32-byte string encoding `L` makes `verify` panic. -/
theorem ECVRF_verify_undecodable_behavior_witness :
    ECVRF_verify concretePrims (natToBytesLE 32 L) ⟨0, 0, 0⟩ [] = .panicked :=
  (ECVRF_verify_undecodable_behavior concretePrims (natToBytesLE 32 L)
    ⟨0, 0, 0⟩ []).1.mpr (by decide)

/-! ## Bounds on the challenge scalar -/

theorem scalarFromBits_pad_lt (l : List Nat) (hl : ∀ b ∈ l, b < 256)
    (hlen : l.length ≤ 16) :
    scalarFromBits (l ++ List.replicate 16 0) < 2 ^ 128 := by
  unfold scalarFromBits
  apply Nat.lt_of_le_of_lt (Nat.mod_le _ _)
  rw [leVal_append, leVal_replicate_zero, mul_zero, add_zero]
  calc leVal l < 256 ^ l.length := leVal_lt l hl
    _ ≤ 256 ^ 16 := Nat.pow_le_pow_right (by omega) hlen
    _ = 2 ^ 128 := by norm_num

theorem hash128_lt (l : List Nat) (hl : ∀ b ∈ l, b < 256) :
    ECVRF_ed25519_scalar_from_hash128 l < 2 ^ 128 := by
  unfold ECVRF_ed25519_scalar_from_hash128
  apply scalarFromBits_pad_lt
  · exact fun b hb => hl b (List.take_subset _ _ hb)
  · simp [List.length_take]

theorem hash_points_challenge_lt (pr : Prims) (hpr : pr.Good) (p1 p2 p3 p4 : Point) :
    ECVRF_ed25519_scalar_from_hash128 (ECVRF_hash_points pr p1 p2 p3 p4) < 2 ^ 128 := by
  apply hash128_lt
  unfold ECVRF_hash_points
  exact fun b hb => hpr.sha_bytes _ b (List.take_subset _ _ hb)

theorem high_bytes_zero_of_lt (c : Nat) (hc : c < 2 ^ 128) :
    (scalarToBytes c).drop 16 = List.replicate 16 0 := by
  unfold scalarToBytes
  rw [drop_natToBytesLE 16 32 c (by omega)]
  have h1 : c / 256 ^ 16 = 0 := Nat.div_eq_of_lt (by norm_num at hc ⊢; omega)
  rw [h1]
  norm_num [natToBytesLE_zero]

/-- Inversion for a successful `ECVRF_Proof::from_slice`. -/
theorem from_slice_ok_inv (pr : Prims) (bytes : List Nat) (p : ECVRF_Proof)
    (h : ECVRF_Proof.from_slice pr bytes = .ok p) :
    bytes.length = 80 ∧ pr.decompress (bytes.take 32) = some p.Gamma ∧
    p.c = scalarFromBits ((bytes.drop 32).take 16 ++ List.replicate 16 0) ∧
    p.s = scalarFromBits ((bytes.drop 48).take 32) := by
  unfold ECVRF_Proof.from_slice at h
  split at h
  · rename_i hlen
    cases hdec : pr.decompress (bytes.take 32) with
    | none => rw [hdec] at h; cases h
    | some gamma =>
        rw [hdec] at h
        injection h with h
        subst h
        exact ⟨hlen, rfl, rfl, rfl⟩
  · cases h

/-- **C5.** Every challenge scalar `c` produced by the challenge hash — and
hence the `c` field of every proof returned by `prove` and of every
successfully decoded proof — has the upper 16 bytes of its 32-byte encoding
equal to zero (the challenge is 128 bits zero-padded into the 256-bit
scalar). -/
theorem challenge_high_bytes_zero (pr : Prims) (hpr : pr.Good) :
    (∀ p1 p2 p3 p4 : Point,
      (scalarToBytes (ECVRF_ed25519_scalar_from_hash128
        (ECVRF_hash_points pr p1 p2 p3 p4))).drop 16 = List.replicate 16 0) ∧
    (∀ sk alpha proof, ECVRF_prove pr sk alpha = .ok proof →
      (scalarToBytes proof.c).drop 16 = List.replicate 16 0) ∧
    (∀ bytes proof, (∀ b ∈ bytes, b < 256) →
      ECVRF_Proof.from_slice pr bytes = .ok proof →
      (scalarToBytes proof.c).drop 16 = List.replicate 16 0) := by
  refine ⟨?_, ?_, ?_⟩
  · intro p1 p2 p3 p4
    exact high_bytes_zero_of_lt _ (hash_points_challenge_lt pr hpr p1 p2 p3 p4)
  · intro sk alpha proof h
    simp only [ECVRF_prove] at h
    injection h with h
    subst h
    exact high_bytes_zero_of_lt _ (hash_points_challenge_lt pr hpr _ _ _ _)
  · intro bytes proof hbytes h
    obtain ⟨-, -, hc, -⟩ := from_slice_ok_inv pr bytes proof h
    rw [hc]
    apply high_bytes_zero_of_lt
    apply scalarFromBits_pad_lt
    · exact fun b hb =>
        hbytes b (List.drop_subset 32 bytes (List.take_subset _ _ hb))
    · simp [List.length_take]

/-- Witness for C5: instantiated at the concrete primitives; the third
conjunct is applied to the all-zero 80-byte proof encoding. -/
theorem challenge_high_bytes_zero_witness :
    (∀ b ∈ List.replicate 80 0, b < 256) ∧
    ECVRF_Proof.from_slice concretePrims (List.replicate 80 0) = .ok ⟨0, 0, 0⟩ ∧
    (scalarToBytes (ECVRF_Proof.c ⟨0, 0, 0⟩)).drop 16 = List.replicate 16 0 :=
  ⟨by decide, by decide,
    (challenge_high_bytes_zero concretePrims concretePrims_good).2.2
      (List.replicate 80 0) ⟨0, 0, 0⟩ (by decide) (by decide)⟩

/-! ## Codec characterization -/

/-- The branch structure of `to_bytes`, with the `let` unfolded. -/
theorem to_bytes_eq (pr : Prims) (p : ECVRF_Proof) :
    ECVRF_Proof.to_bytes pr p =
      if ((scalarToBytes (scalarReduce p.c)).drop 16).any (fun b => b ≠ 0) then
        .error .InvalidDataError
      else
        .ok (pr.compress p.Gamma ++ (scalarToBytes (scalarReduce p.c)).take 16 ++
          scalarToBytes p.s) := rfl

/-- Bridge between the `any`-check of `to_bytes` and "some byte at an index
in `[16, 32)` is non-zero", for a 32-byte buffer. -/
theorem any_drop16_iff (l : List Nat) (hlen : l.length = 32) :
    (l.drop 16).any (fun b => b ≠ 0) = true ↔
      ∃ i, 16 ≤ i ∧ i < 32 ∧ l.getD i 0 ≠ 0 := by
  rw [List.any_eq_true]
  constructor
  · rintro ⟨x, hx, hpx⟩
    rw [List.mem_iff_getElem] at hx
    obtain ⟨j, hj, hxj⟩ := hx
    have hjl : j < 16 := by
      have := List.length_drop 16 l
      omega
    have hb : 16 + j < l.length := by omega
    refine ⟨16 + j, by omega, by omega, ?_⟩
    have hg : l.getD (16 + j) 0 = x := by
      rw [List.getD_eq_getElem?_getD, List.getElem?_eq_getElem hb, Option.getD_some]
      rw [List.getElem_drop] at hxj
      exact hxj
    rw [hg]
    simpa using hpx
  · rintro ⟨i, h16, h32, hne⟩
    have hb : i < l.length := by omega
    have hd : i - 16 < (l.drop 16).length := by
      rw [List.length_drop]
      omega
    refine ⟨(l.drop 16).get ⟨i - 16, hd⟩, List.get_mem _ _ _, ?_⟩
    have hg : (l.drop 16).get ⟨i - 16, hd⟩ = l.getD i 0 := by
      have h1 : 16 + (i - 16) = i := by omega
      simp only [List.get_eq_getElem, List.getElem_drop, h1,
        List.getD_eq_getElem?_getD, List.getElem?_eq_getElem hb, Option.getD_some]
    rw [hg]
    simpa using hne

/-- **C6.** The codec raises `InvalidData` exactly at its structural checks:
`to_bytes` fails iff some byte of `reduce(c)[16..32]` is non-zero; and
`from_slice` fails iff the length differs from 80 or the first 32 bytes do
not decode; on success it returns `Γ = decompress(in[0..32])`,
`c = scalar_from_bits(in[32..48] ‖ 0¹⁶)`, `s = scalar_from_bits(in[48..80])`. -/
theorem codec_error_conditions (pr : Prims) (proof : ECVRF_Proof) (bytes : List Nat) :
    (ECVRF_Proof.to_bytes pr proof = .error .InvalidDataError ↔
      ∃ i, 16 ≤ i ∧ i < 32 ∧ (scalarToBytes (scalarReduce proof.c)).getD i 0 ≠ 0) ∧
    (ECVRF_Proof.from_slice pr bytes = .error .InvalidDataError ↔
      bytes.length ≠ 80 ∨ pr.decompress (bytes.take 32) = none) ∧
    (∀ gamma, bytes.length = 80 → pr.decompress (bytes.take 32) = some gamma →
      ECVRF_Proof.from_slice pr bytes =
        .ok ⟨gamma, scalarFromBits ((bytes.drop 32).take 16 ++ List.replicate 16 0),
          scalarFromBits ((bytes.drop 48).take 32)⟩) := by
  refine ⟨?_, ?_, ?_⟩
  · rw [to_bytes_eq, ← any_drop16_iff (scalarToBytes (scalarReduce proof.c))
      (length_natToBytesLE 32 _)]
    split
    · rename_i hany
      exact iff_of_true rfl hany
    · rename_i hany
      exact iff_of_false (fun hh => Except.noConfusion hh) hany
  · unfold ECVRF_Proof.from_slice
    split
    · rename_i hlen
      cases hdec : pr.decompress (bytes.take 32) with
      | none => simp [hlen, hdec]
      | some gamma => simp [hlen, hdec]
    · rename_i hlen
      simp [hlen]
  · intro gamma hlen hdec
    unfold ECVRF_Proof.from_slice
    rw [if_pos hlen, hdec]

/-- Witness for C6: the success path of `from_slice` applied at the concrete
primitives and the all-zero 80-byte buffer. -/
theorem codec_error_conditions_witness :
    (List.replicate 80 0 : List Nat).length = 80 ∧
    concretePrims.decompress ((List.replicate 80 0).take 32) = some 0 ∧
    ECVRF_Proof.from_slice concretePrims (List.replicate 80 0) =
      .ok ⟨0, scalarFromBits (((List.replicate 80 0).drop 32).take 16 ++
          List.replicate 16 0),
        scalarFromBits (((List.replicate 80 0).drop 48).take 32)⟩ :=
  ⟨by decide, by decide,
    (codec_error_conditions concretePrims ⟨0, 0, 0⟩ (List.replicate 80 0)).2.2 0
      (by decide) (by decide)⟩

/-! ## Round-trip of the codec on honestly bounded proofs -/

theorem two_pow_128_lt_L : 2 ^ 128 < L := by unfold L; norm_num

theorem scalarToBytes_length (s : Nat) : (scalarToBytes s).length = 32 :=
  length_natToBytesLE 32 s

theorem roundtrip_of_bounds (pr : Prims) (hpr : pr.Good) (p : ECVRF_Proof)
    (hc : p.c < 2 ^ 128) (hs : p.s < 2 ^ 255) :
    ECVRF_Proof.to_bytes pr p = .ok (pr.compress p.Gamma ++
      (scalarToBytes (scalarReduce p.c)).take 16 ++ scalarToBytes p.s) ∧
    ECVRF_Proof.from_slice pr (pr.compress p.Gamma ++
      (scalarToBytes (scalarReduce p.c)).take 16 ++ scalarToBytes p.s) = .ok p := by
  have hred : scalarReduce p.c = p.c :=
    Nat.mod_eq_of_lt (lt_trans hc two_pow_128_lt_L)
  have hzero : (scalarToBytes (scalarReduce p.c)).drop 16 = List.replicate 16 0 := by
    rw [hred]
    exact high_bytes_zero_of_lt p.c hc
  have hcond : ((scalarToBytes (scalarReduce p.c)).drop 16).any (fun b => b ≠ 0)
      = false := by
    rw [hzero]
    decide
  have lenA : (pr.compress p.Gamma).length = 32 := hpr.compress_len p.Gamma
  have lenB : ((scalarToBytes (scalarReduce p.c)).take 16).length = 16 := by
    rw [List.length_take, scalarToBytes_length]
    omega
  have lenC : (scalarToBytes p.s).length = 32 := scalarToBytes_length p.s
  constructor
  · rw [to_bytes_eq, hcond]
    simp
  · have htake32 : ((pr.compress p.Gamma ++ (scalarToBytes (scalarReduce p.c)).take 16
        ++ scalarToBytes p.s)).take 32 = pr.compress p.Gamma := by
      rw [List.append_assoc, List.take_left' lenA]
    have hdrop32 : ((pr.compress p.Gamma ++ (scalarToBytes (scalarReduce p.c)).take 16
        ++ scalarToBytes p.s)).drop 32 =
        (scalarToBytes (scalarReduce p.c)).take 16 ++ scalarToBytes p.s := by
      rw [List.append_assoc, List.drop_left' lenA]
    have hdrop48 : ((pr.compress p.Gamma ++ (scalarToBytes (scalarReduce p.c)).take 16
        ++ scalarToBytes p.s)).drop 48 = scalarToBytes p.s := by
      rw [List.drop_left' (by rw [List.length_append, lenA, lenB])]
    have hc2 : scalarFromBits ((scalarToBytes (scalarReduce p.c)).take 16 ++
        List.replicate 16 0) = p.c := by
      rw [hred]
      unfold scalarToBytes
      rw [take_natToBytesLE 16 32 p.c (by omega)]
      unfold scalarFromBits
      rw [leVal_append, leVal_replicate_zero, mul_zero, add_zero, leVal_natToBytesLE]
      have h256 : (256 : Nat) ^ 16 = 2 ^ 128 := by norm_num
      rw [h256, Nat.mod_eq_of_lt hc]
      exact Nat.mod_eq_of_lt (lt_trans hc (by norm_num))
    have hs2 : scalarFromBits ((scalarToBytes p.s).take 32) = p.s := by
      rw [List.take_of_length_le (le_of_eq lenC)]
      unfold scalarToBytes scalarFromBits
      rw [leVal_natToBytesLE]
      have h256 : (256 : Nat) ^ 32 = 2 ^ 256 := by norm_num
      rw [h256, Nat.mod_eq_of_lt (lt_trans hs (by norm_num))]
      exact Nat.mod_eq_of_lt hs
    unfold ECVRF_Proof.from_slice
    rw [if_pos (by simp [List.length_append, lenA, lenB, lenC]), htake32,
      hpr.decompress_compress]
    simp only [hdrop32, hdrop48, List.take_left' lenB, hc2, hs2]

/-- **C7.** For every proof `π` produced by `prove`, encoding then decoding
restores it exactly: `decode(encode(π)) == π`, and in particular the decoded
`Γ` compresses to the same 32 bytes as `π.Γ`. -/
theorem proof_roundtrip (pr : Prims) (hpr : pr.Good) (sk alpha : List Nat)
    (proof : ECVRF_Proof) (h : ECVRF_prove pr sk alpha = .ok proof) :
    ∃ bs, ECVRF_Proof.to_bytes pr proof = .ok bs ∧
      ECVRF_Proof.from_slice pr bs = .ok proof ∧
      ∀ q, ECVRF_Proof.from_slice pr bs = .ok q →
        pr.compress q.Gamma = pr.compress proof.Gamma := by
  have hcb : proof.c < 2 ^ 128 := by
    simp only [ECVRF_prove] at h
    injection h with h
    rw [← h]
    exact hash_points_challenge_lt pr hpr _ _ _ _
  have hsb : proof.s < 2 ^ 255 := by
    simp only [ECVRF_prove] at h
    injection h with h
    rw [← h]
    exact lt_trans (scalarReduce_lt _)
      (lt_trans L_lt_two_pow_253 (by norm_num))
  obtain ⟨h1, h2⟩ := roundtrip_of_bounds pr hpr proof hcb hsb
  refine ⟨_, h1, h2, ?_⟩
  intro q hq
  rw [h2] at hq
  injection hq with hq
  rw [← hq]

/-- Witness for C7: the round-trip at the concrete primitives, the all-zero
secret key and the empty message (whose proof is the zero triple). -/
theorem proof_roundtrip_witness :
    ECVRF_prove concretePrims (List.replicate 32 0) [] = .ok ⟨0, 0, 0⟩ ∧
    ∃ bs, ECVRF_Proof.to_bytes concretePrims ⟨0, 0, 0⟩ = .ok bs ∧
      ECVRF_Proof.from_slice concretePrims bs = .ok ⟨0, 0, 0⟩ ∧
      ∀ q, ECVRF_Proof.from_slice concretePrims bs = .ok q →
        concretePrims.compress q.Gamma = concretePrims.compress (0 : Point) :=
  ⟨by decide, proof_roundtrip concretePrims concretePrims_good
    (List.replicate 32 0) [] ⟨0, 0, 0⟩ (by decide)⟩

/-- **C8.** `prove` is deterministic: for every `(sk, alpha)`, any two
invocations of `prove(sk, alpha)` produce proofs whose 80-byte encodings are
identical (no randomness is consumed by `prove` or `verify`). -/
theorem prove_deterministic (pr : Prims) (sk alpha : List Nat)
    (proof₁ proof₂ : ECVRF_Proof) (bs₁ bs₂ : List Nat)
    (h₁ : ECVRF_prove pr sk alpha = .ok proof₁)
    (h₂ : ECVRF_prove pr sk alpha = .ok proof₂)
    (hb₁ : ECVRF_Proof.to_bytes pr proof₁ = .ok bs₁)
    (hb₂ : ECVRF_Proof.to_bytes pr proof₂ = .ok bs₂) :
    proof₁ = proof₂ ∧ bs₁ = bs₂ := by
  rw [h₁] at h₂
  injection h₂ with h₂
  subst h₂
  rw [hb₁] at hb₂
  injection hb₂ with hb₂
  exact ⟨rfl, hb₂⟩

/-- Witness for C8: two (definitionally identical) invocations at the
concrete primitives, the all-zero secret key and the empty message. -/
theorem prove_deterministic_witness :
    ECVRF_prove concretePrims (List.replicate 32 0) [] = .ok ⟨0, 0, 0⟩ ∧
    ECVRF_Proof.to_bytes concretePrims ⟨0, 0, 0⟩ = .ok (List.replicate 80 0) ∧
    ((⟨0, 0, 0⟩ : ECVRF_Proof) = ⟨0, 0, 0⟩ ∧
      (List.replicate 80 0 : List Nat) = List.replicate 80 0) :=
  ⟨by decide, by decide,
    prove_deterministic concretePrims (List.replicate 32 0) [] ⟨0, 0, 0⟩ ⟨0, 0, 0⟩
      (List.replicate 80 0) (List.replicate 80 0)
      (by decide) (by decide) (by decide) (by decide)⟩

/-! ## Invariance of `verify` under reduction of the response scalar -/

/-- `verifySpecChallenge` on an explicit proof record, with the `let`s and
projections unfolded. -/
theorem verifySpecChallenge_mk (pr : Prims) (Yp : Point) (Y : List Nat)
    (Gamma : Point) (c s : Nat) (alpha : List Nat) :
    verifySpecChallenge pr Yp Y ⟨Gamma, c, s⟩ alpha =
      ECVRF_ed25519_scalar_from_hash128 (ECVRF_hash_points pr
        (ECVRF_hash_to_curve pr Y alpha) Gamma
        (smulPoint (scalarReduce s) basepoint - smulPoint c Yp)
        (smulPoint (scalarReduce s) (ECVRF_hash_to_curve pr Y alpha) -
          smulPoint c Gamma)) := rfl

theorem verify_s_congr (pr : Prims) (Y : List Nat) (Gamma : Point) (c s₁ s₂ : Nat)
    (alpha : List Nat) (h : scalarReduce s₁ = scalarReduce s₂) :
    ECVRF_verify pr Y ⟨Gamma, c, s₁⟩ alpha =
      ECVRF_verify pr Y ⟨Gamma, c, s₂⟩ alpha := by
  cases hdec : pr.edDecompress Y with
  | none =>
      rw [ECVRF_verify_of_undecodable pr Y _ alpha hdec,
        ECVRF_verify_of_undecodable pr Y _ alpha hdec]
  | some Yp =>
      rw [ECVRF_verify_of_decodable pr Y _ alpha Yp hdec,
        ECVRF_verify_of_decodable pr Y _ alpha Yp hdec,
        verifySpecChallenge_mk, verifySpecChallenge_mk, h]

/-- **C10.** `verify` is invariant under reduction of the response scalar:
`verify(Y, {Γ, c, s}, alpha)` returns the same result as
`verify(Y, {Γ, c, reduce(s)}, alpha)`, and any `s'` in the same residue
class mod `ℓ` (same reduction) verifies identically. -/
theorem verify_invariant_under_s_reduction (pr : Prims) (Y : List Nat)
    (Gamma : Point) (c s : Nat) (alpha : List Nat) :
    ECVRF_verify pr Y ⟨Gamma, c, s⟩ alpha =
      ECVRF_verify pr Y ⟨Gamma, c, scalarReduce s⟩ alpha ∧
    ∀ t, scalarReduce t = scalarReduce s →
      ECVRF_verify pr Y ⟨Gamma, c, t⟩ alpha =
        ECVRF_verify pr Y ⟨Gamma, c, s⟩ alpha :=
  ⟨verify_s_congr pr Y Gamma c s (scalarReduce s) alpha
      (scalarReduce_scalarReduce s).symm,
    fun t ht => verify_s_congr pr Y Gamma c t s alpha ht⟩

/-- Witness for C10: at the concrete primitives, the unreduced response `L`
verifies identically to the reduced response `0`. -/
theorem verify_invariant_under_s_reduction_witness :
    scalarReduce 0 = scalarReduce L ∧
    ECVRF_verify concretePrims (natToBytesLE 32 1) ⟨0, 0, 0⟩ [] =
      ECVRF_verify concretePrims (natToBytesLE 32 1) ⟨0, 0, L⟩ [] :=
  ⟨by decide,
    (verify_invariant_under_s_reduction concretePrims (natToBytesLE 32 1) 0 0 L
      []).2 0 (by decide)⟩

end ECVRF
